import Mathlib

/-!
Verification of the core of the Hyrax Pedersen vector-commitment engine
(`worldcoin/hyrax-pcs-commit`): a shallow embedding in Lean 4 of

* the Pedersen committer over byte vectors with its precomputed doubling
  tables (`src/pedersen/mod.rs`),
* the Hyrax row-wise matrix commitment (`src/iriscode_commit/mod.rs`),
* the BN254 point serialization layer (`src/curves/mod.rs`),

together with proofs and refutations of the specification's claims.

The committer and matrix layers are generic over the curve in the source
(`C : PrimeOrderCurve`); they are embedded generically over an additive
commutative group `G` with a scalar field `F` acting on it.  External
primitives that the repository only consumes (field arithmetic of
BN254, the SHAKE256 XOF stream, the ChaCha20 CSPRNG, arkworks'
`sqrt` / `get_ys_from_x_unchecked`) are modelled as explicit parameters
or, for the concrete BN254 base field, as `ZMod q`.
-/

namespace Hyrax

/-! ## Fast modular exponentiation

Kernel-evaluable modular exponentiation, used to model arkworks'
`Fp::pow` (square-and-multiply) and to check primality certificates.
The fuel argument bounds the number of halvings of the exponent. -/

def powModAux (m : ℕ) : ℕ → ℕ → ℕ → ℕ → ℕ
  | 0, _, _, acc => acc
  | f + 1, b, e, acc =>
      if e = 0 then acc
      else powModAux m f (b * b % m) (e / 2) (if e % 2 = 1 then acc * b % m else acc)

/-- `powMod m b e = b ^ e % m`, provided `e < 2 ^ 256` (enough for all
exponents arising from 254-bit moduli). -/
def powMod (m b e : ℕ) : ℕ := powModAux m 256 (b % m) e (1 % m)

/-- The BN254/BN256 base field modulus `q` (the field over which the G1 curve
`y^2 = x^3 + 3` is defined). -/
def qBN : ℕ :=
  21888242871839275222246405745257275088696311157297823662689037894645226208583

/-- The BN254 scalar field modulus `r` (the order of the G1 group). -/
def rBN : ℕ :=
  21888242871839275222246405745257275088548364400416034343698204186575808495617

/-! ## List utilities

`chunks` mirrors Rust's `slice::chunks` (all chunks of size `n`, except a
shorter final chunk); it is only ever used with `n ≠ 0`, matching the Rust
panic on `chunks(0)` which the matrix layer guards against separately.
`optionList` sequences a list of `Option`s: a `none` element (a Rust panic
inside an iterator) aborts the whole operation.  `drawN` performs `n`
sequential draws from a stateful generator, as the source's
`(0..n).map(|_| rng_draw(&mut state))` iterator chains do. -/

def chunksFuel {α : Type _} : ℕ → ℕ → List α → List (List α)
  | 0, _, _ => []
  | f + 1, n, l => if l.isEmpty then [] else l.take n :: chunksFuel f n (l.drop n)

def chunks {α : Type _} (n : ℕ) (l : List α) : List (List α) :=
  chunksFuel l.length n l

def optionList {α : Type _} : List (Option α) → Option (List α)
  | [] => some []
  | none :: _ => none
  | some a :: rest => (optionList rest).map (a :: ·)

def drawN {S A : Type _} (step : S → A × S) : ℕ → S → List A × S
  | 0, st => ([], st)
  | n + 1, st =>
      let pst := step st
      let rest := drawN step n pst.2
      (pst.1 :: rest.1, rest.2)

/-! ## The concrete BN254 G1 curve layer (`src/curves/mod.rs`)

The source represents points as arkworks Jacobian `G1Projective` values;
its observable contract (`affine_coordinates`) exposes `none` for the
identity and the affine pair otherwise, and every constructor used by the
serialization code builds `{x, y, z: 1}`, i.e. the affine point `(x, y)`.
We therefore embed a point as `Option (Fq × Fq)`. -/

/-- The BN254 base field. -/
abbrev Fq : Type := ZMod qBN

/-- The BN254 scalar field (`Bn256Scalar`/`Fr`). -/
abbrev Fr : Type := ZMod rBN

/-- Observable state of a `Bn256Point`: `none` is the identity, `some (x, y)`
a point with affine coordinates `(x, y)`. -/
abbrev Point : Type := Option (Fq × Fq)

/-- `PrimeOrderCurve::a()` for BN254: `0`. -/
def curveA : Fq := 0

/-- `PrimeOrderCurve::b()` for BN254: `3`. -/
def curveB : Fq := 3

/-- `Bn256Point::zero()`: the identity (point at infinity). -/
def bnZero : Point := none

/-- `Bn256Point::generator()`: affine coordinates `(1, 2)`. -/
def bnGenerator : Point := some (1, 2)

/-- `is_on_curve` exactly as implemented at `src/curves/mod.rs:114-125`:
the identity passes, and a finite point passes iff
`(x * x + a) * x + b == y`.  (Note the comparison against `y`, not `y * y`.) -/
def is_on_curve (p : Point) : Bool :=
  match p with
  | none => true
  | some (x, y) => decide ((x * x + curveA) * x + curveB = y)

/-- Little-endian base-256 digits of `n`, `w` bytes wide (arkworks
`into_bigint().to_bytes_le()` for a 4-limb bigint has `w = 32`). -/
def natLeBytes : ℕ → ℕ → List ℕ
  | 0, _ => []
  | w + 1, n => n % 256 :: natLeBytes w (n / 256)

/-- The integer denoted by a little-endian byte string. -/
def leBytesToNat (bytes : List ℕ) : ℕ :=
  bytes.foldr (fun b acc => b + 256 * acc) 0

/-- arkworks `from_le_bytes_mod_order`: interpret a byte string (of any
length) as a little-endian integer and reduce it mod `m`. -/
def from_le_bytes_mod_order (m : ℕ) (bytes : List ℕ) : ZMod m :=
  (leBytesToNat bytes : ZMod m)

def UNCOMPRESSED_CURVE_POINT_BYTEWIDTH : ℕ := 65
def COMPRESSED_CURVE_POINT_BYTEWIDTH : ℕ := 34
def SCALAR_ELEM_BYTEWIDTH : ℕ := 32

/-- `to_bytes_uncompressed` (`src/curves/mod.rs:195-212`):
`[0] || x_le32 || y_le32` for a finite point, `[1; 65]` for the identity. -/
def to_bytes_uncompressed (p : Point) : List ℕ :=
  match p with
  | some (x, y) => 0 :: (natLeBytes 32 x.val ++ natLeBytes 32 y.val)
  | none => List.replicate 65 1

/-- `to_bytes_compressed` (`src/curves/mod.rs:221-242`):
`[0] || x_le32 || [y_le_bytes[0] & 1]` for a finite point, `[1; 34]` for the
identity. -/
def to_bytes_compressed (p : Point) : List ℕ :=
  match p with
  | some (x, y) => 0 :: (natLeBytes 32 x.val ++ [(natLeBytes 32 y.val).getD 0 0 &&& 1])
  | none => List.replicate 34 1

/-- `from_bytes_uncompressed` (`src/curves/mod.rs:247-278`).  `none` models a
panicking assertion (length 65; on-curve check for finite points). -/
def from_bytes_uncompressed (bytes : List ℕ) : Option Point :=
  if bytes.length = 65 then
    if bytes.getD 0 0 = 1 then some bnZero
    else
      let x : Fq := from_le_bytes_mod_order qBN ((bytes.drop 1).take 32)
      let y : Fq := from_le_bytes_mod_order qBN ((bytes.drop 33).take 32)
      if is_on_curve (some (x, y)) then some (some (x, y)) else none
  else none

/-- Modelled from the spec (§3 BaseFieldElement "sqrt (returns the optional
canonical root)"): arkworks' `Fq::sqrt` for `q ≡ 3 (mod 4)` computes the
candidate `a^((q+1)/4)` and returns it iff its square is `a`.  The arkworks
crate is an external dependency of the repository ("assumed given", spec §1). -/
def fqSqrt (a : Fq) : Option Fq :=
  let c : Fq := ((powMod qBN a.val ((qBN + 1) / 4) : ℕ) : Fq)
  if c * c = a then some c else none

/-- Modelled from the spec (§4.1): arkworks' `get_ys_from_x_unchecked`
returns the two candidate y-coordinates for `x`, smallest (by canonical
integer value) first, if `x^3 + ax + b` has a square root. -/
def get_ys_from_x_unchecked (x : Fq) : Option (Fq × Fq) :=
  (fqSqrt ((x * x + curveA) * x + curveB)).map (fun y =>
    if y.val < (-y).val then (y, -y) else (-y, y))

/-- `from_bytes_compressed` (`src/curves/mod.rs:283-315`).  `none` models a
panicking assertion (length 34) or the `.unwrap()` on a non-square
x-coordinate. -/
def from_bytes_compressed (bytes : List ℕ) : Option Point :=
  if bytes.length = 34 then
    if bytes.getD 0 0 = 1 then some bnZero
    else
      let y_sign_byte := bytes.getD 33 0
      let x : Fq := from_le_bytes_mod_order qBN ((bytes.drop 1).take 32)
      match get_ys_from_x_unchecked x with
      | none => none
      | some yy =>
          let y :=
            if ((natLeBytes 32 yy.1.val).getD 0 0 % 2) ^^^ y_sign_byte = 0 then yy.1
            else yy.2
          some (some (x, y))
  else none

/-- The mathematical curve-membership invariant of the data model (spec §3:
"every non-identity point satisfies the curve equation"). -/
def OnCurve (p : Point) : Prop :=
  match p with
  | none => True
  | some (x, y) => y * y = (x * x + curveA) * x + curveB

/-- `deserialize_commitment_from_bytes_compressed`
(`src/iriscode_commit/mod.rs:119-125`): split into 34-byte chunks and decode
each; a failing chunk (Rust panic) aborts the whole call. -/
def deserialize_commitment_from_bytes_compressed (bytes : List ℕ) : Option (List Point) :=
  optionList ((chunks COMPRESSED_CURVE_POINT_BYTEWIDTH bytes).map from_bytes_compressed)

/-- `deserialize_blinding_factors_from_bytes_compressed`
(`src/iriscode_commit/mod.rs:127-135`): split into 32-byte chunks and reduce
each mod `r`.  There is no length check and no failure path. -/
def deserialize_blinding_factors_from_bytes_compressed (bytes : List ℕ) : List Fr :=
  (chunks SCALAR_ELEM_BYTEWIDTH bytes).map (fun ch => from_le_bytes_mod_order rBN ch)

/-! ## The Pedersen committer (`src/pedersen/mod.rs`)

The source is generic over `C : PrimeOrderCurve`; we embed it generically
over an additive commutative group `G` whose scalar field `F` acts on it
(`p * s` in the trait is `s • p`; the trait's `double` is `p + p` by the
group laws, which the repository's own curve tests assert). -/

/-- `PedersenCommitter` (`src/pedersen/mod.rs:13-19`). -/
structure PedersenCommitter (G : Type _) where
  generators : List G
  blinding_generator : G
  generator_doublings : List (List G)

def U8_BITWIDTH : ℕ := 8

/-- `binary_decomposition_le` (`src/pedersen/mod.rs:92-98`) instantiated at
`T = u8`: bit `i` is `value & (1 << i) != 0`, for `i = 0..8`. -/
def binary_decomposition_le (value : ℕ) : List Bool :=
  (List.range U8_BITWIDTH).map (fun i => decide (value &&& (1 <<< i) ≠ 0))

/-- `precompute_doublings` (`src/pedersen/mod.rs:102-110`):
`[base, 2·base, 4·base, …, 2^(bitwidth-1)·base]`. -/
def precompute_doublings {G : Type _} [AddCommGroup G] (base : G) : ℕ → List G
  | 0 => []
  | w + 1 => base :: precompute_doublings (base + base) w

/-- `vector_commit` (`src/pedersen/mod.rs:68-86`).  `none` models the failed
assertion `message.len() <= self.generators.len()`.  Each message byte is
paired (`zip`) with the doubling table of its generator; its bits select
table entries (index `i` of the table is `2^i • G`). -/
def vector_commit {G : Type _} [AddCommGroup G] {F : Type _} [Field F] [Module F G]
    (self : PedersenCommitter G) (message : List ℕ) (blinding : F) : Option G :=
  if message.length ≤ self.generators.length then
    let unblinded : G :=
      ((message.zip self.generator_doublings).map (fun p =>
        ((binary_decomposition_le p.1).enum.foldl
          (fun acc ib => if ib.2 then acc + p.2.getD ib.1 0 else acc) 0))).foldl
        (· + ·) 0
    some (unblinded + blinding • self.blinding_generator)
  else none

/-- The construction invariant of `PedersenCommitter::new`: the (private)
doubling tables are exactly the 8-entry doubling tables of the generators. -/
def wf {G : Type _} [AddCommGroup G] (c : PedersenCommitter G) : Prop :=
  c.generator_doublings = c.generators.map (fun g => precompute_doublings g U8_BITWIDTH)

/-- `sample_generators` (`src/pedersen/mod.rs:49-62`): assert the public
string has ≥ 32 bytes, seed the XOF with its first 32 bytes, and draw
`num_generators` points sequentially.  The SHAKE256 XOF stream and
`C::random` are external primitives (spec §1), modelled by the parameters
`xofInit` (seeding) and `curveRandom` (one stateful draw). -/
def sample_generators {G XS : Type _} (xofInit : List ℕ → XS) (curveRandom : XS → G × XS)
    (num_generators : ℕ) (public_string : List ℕ) : Option (List G) :=
  if 32 ≤ public_string.length then
    some (drawN curveRandom num_generators (xofInit (public_string.take 32))).1
  else none

/-- `PedersenCommitter::new` (`src/pedersen/mod.rs:28-44`): sample
`num_generators + 1` points; the first is the blinding generator `H`, the
rest are the message generators, each with its precomputed doubling table. -/
def new {G XS : Type _} [AddCommGroup G] (xofInit : List ℕ → XS) (curveRandom : XS → G × XS)
    (num_generators : ℕ) (public_string : List ℕ) : Option (PedersenCommitter G) :=
  (sample_generators xofInit curveRandom (num_generators + 1) public_string).map
    (fun all_generators =>
      let blinding_generator_h := all_generators.headD 0
      let generators_g_i := all_generators.tail
      { generators := generators_g_i
        blinding_generator := blinding_generator_h
        generator_doublings :=
          generators_g_i.map (fun g => precompute_doublings g U8_BITWIDTH) })

/-! ## The Hyrax matrix commitment (`src/iriscode_commit/mod.rs`) -/

/-- `HyraxCommitmentOutput` (`src/iriscode_commit/mod.rs:25-28`). -/
structure HyraxCommitmentOutput (G F : Type _) where
  commitment : List G
  blinding_factors : List F

def nextPow2Go : ℕ → ℕ → ℕ → ℕ
  | 0, _, acc => acc
  | f + 1, n, acc => if n ≤ acc then acc else nextPow2Go f n (2 * acc)

/-- Rust `usize::next_power_of_two`: the least power of two that is
`≥ max 1 n` (in particular `0 → 1`). -/
def next_power_of_two (n : ℕ) : ℕ := nextPow2Go n n 1

/-- The zero-padding performed by `compute_commitments`
(`src/iriscode_commit/mod.rs:89-94`). -/
def paddedData (data : List ℕ) : List ℕ :=
  data ++ List.replicate (next_power_of_two data.length - data.length) 0

/-- `compute_commitments` (`src/iriscode_commit/mod.rs:84-116`): zero-pad the
data to the next power of two, draw one blinding scalar per row from the
seeded CSPRNG (ChaCha20, an external primitive modelled by the parameters
`chachaFromSeed` and `scalarRand`), and commit to each row.  `none` models
the Rust panics: division by zero / `chunks(0)` when the committer has no
generators, or a failing `vector_commit` assertion. -/
def compute_commitments {G : Type _} [AddCommGroup G] {F : Type _} [Field F] [Module F G]
    {RS : Type _} (chachaFromSeed : List ℕ → RS) (scalarRand : RS → F × RS)
    (data : List ℕ) (vector_committer : PedersenCommitter G) (blinding_factor_seed : List ℕ) :
    Option (HyraxCommitmentOutput G F) :=
  let data_vec := paddedData data
  let n_cols := vector_committer.generators.length
  if n_cols = 0 then none
  else
    let n_rows := data_vec.length / n_cols
    let blinding_factors :=
      (drawN scalarRand n_rows (chachaFromSeed blinding_factor_seed)).1
    let row_chunks := chunks n_cols data_vec
    (optionList ((row_chunks.zip blinding_factors).map
        (fun p => vector_commit vector_committer p.1 p.2))).map
      (fun commitment => ⟨commitment, blinding_factors⟩)

/-! ## Concrete instantiations used to exercise the generic theorems -/

instance : Fact (Nat.Prime 5) := ⟨by norm_num⟩

/-- A one-generator committer over the group `ZMod 5` (the group laws are
all the generic theorems use), with its doubling table built by
`precompute_doublings` exactly as `PedersenCommitter::new` does. -/
def witCommitter : PedersenCommitter (ZMod 5) :=
  { generators := [1]
    blinding_generator := 1
    generator_doublings := [precompute_doublings (1 : ZMod 5) U8_BITWIDTH] }

/-- A trivial stateful draw (state = a counter) standing in for the external
XOF / CSPRNG streams in concrete instantiations. -/
def witRand : ℕ → ZMod 5 × ℕ := fun n => ((n : ZMod 5), n + 1)

/-- A trivial seeding function standing in for XOF/CSPRNG seeding in
concrete instantiations. -/
def witSeed : List ℕ → ℕ := fun _ => 0

theorem powModAux_eq (m : ℕ) (hm : 0 < m) :
    ∀ f b e acc, e < 2 ^ f → acc < m → powModAux m f b e acc = acc * b ^ e % m := by
  intro f
  induction f with
  | zero =>
      intro b e acc he hacc
      rw [pow_zero] at he
      have h0 : e = 0 := by omega
      subst h0
      simp [powModAux, Nat.mod_eq_of_lt hacc]
  | succ f ih =>
      intro b e acc he hacc
      by_cases he0 : e = 0
      · subst he0
        simp [powModAux, Nat.mod_eq_of_lt hacc]
      · have hdiv : e / 2 < 2 ^ f := by
          have h2 : e < 2 ^ f * 2 := by rw [pow_succ] at he; omega
          omega
        have hacc' : (if e % 2 = 1 then acc * b % m else acc) < m := by
          split
          · exact Nat.mod_lt _ hm
          · exact hacc
        rw [powModAux, if_neg he0, ih _ _ _ hdiv hacc']
        by_cases hpar : e % 2 = 1
        · have hek : e = 2 * (e / 2) + 1 := by omega
          rw [if_pos hpar]
          conv_rhs => rw [hek]
          have hb : b ^ (2 * (e / 2) + 1) = b * (b * b) ^ (e / 2) := by ring
          rw [hb, ← mul_assoc]
          rw [Nat.mul_mod (acc * b % m)]
          rw [Nat.mod_mod_of_dvd _ dvd_rfl]
          rw [← Nat.pow_mod]
          rw [← Nat.mul_mod]
        · have hek : e = 2 * (e / 2) := by omega
          rw [if_neg hpar]
          conv_rhs => rw [hek]
          have hb : b ^ (2 * (e / 2)) = (b * b) ^ (e / 2) := by ring
          rw [hb]
          rw [Nat.mul_mod acc ((b * b % m) ^ (e / 2))]
          rw [← Nat.pow_mod]
          rw [← Nat.mul_mod]

theorem powMod_eq (m b e : ℕ) (hm : 0 < m) (he : e < 2 ^ 256) :
    powMod m b e = b ^ e % m := by
  rw [powMod, powModAux_eq m hm 256 _ _ _ he (Nat.mod_lt _ hm)]
  rw [Nat.mul_mod]
  rw [Nat.mod_mod_of_dvd _ dvd_rfl]
  rw [← Nat.pow_mod]
  rw [← Nat.mul_mod]
  rw [one_mul]

/-! ## Primality certificates (Pratt / Lucas)

`certCheck p a l` verifies a Lucas primality certificate for `p` with
witness `a` and the claimed prime factorization `l` of `p - 1`
(given as (prime, exponent) pairs).  Soundness reduces to Mathlib's
`lucas_primality`; primality of the listed factors is supplied
recursively. -/

def certProd (l : List (ℕ × ℕ)) : ℕ := (l.map (fun pr => pr.1 ^ pr.2)).prod

def certCheck (p a : ℕ) (l : List (ℕ × ℕ)) : Bool :=
  decide (2 ≤ p) && decide (p < 2 ^ 256) && decide (p - 1 = certProd l) &&
    decide (powMod p a (p - 1) = 1 % p) &&
    l.all (fun pr => decide (powMod p a ((p - 1) / pr.1) ≠ 1 % p))

theorem certCheck_sound (p a : ℕ) (l : List (ℕ × ℕ))
    (hl : ∀ pr ∈ l, Nat.Prime pr.1) (h : certCheck p a l = true) : Nat.Prime p := by
  have h' := h
  simp only [certCheck, Bool.and_eq_true, decide_eq_true_eq, List.all_eq_true] at h'
  obtain ⟨⟨⟨⟨hp2, hpbound⟩, hprod⟩, hpow⟩, hall⟩ := h'
  have hm : 0 < p := by omega
  have hebound : p - 1 < 2 ^ 256 := by omega
  have key : ∀ e : ℕ, e < 2 ^ 256 →
      (powMod p a e = 1 % p ↔ (a : ZMod p) ^ e = 1) := by
    intro e he
    rw [powMod_eq p a e hm he]
    constructor
    · intro hmod
      have : ((a ^ e : ℕ) : ZMod p) = ((1 : ℕ) : ZMod p) := by
        rw [ZMod.natCast_eq_natCast_iff']
        simpa using hmod
      simpa using this
    · intro hcast
      have : ((a ^ e : ℕ) : ZMod p) = ((1 : ℕ) : ZMod p) := by push_cast; simpa using hcast
      have := (ZMod.natCast_eq_natCast_iff' _ _ _).mp this
      simpa using this
  apply lucas_primality p (a : ZMod p)
  · exact (key _ hebound).mp hpow
  · intro q hq hqdvd
    have hmem : ∃ pr ∈ l, q = pr.1 := by
      have hq' : Prime q := hq.prime
      have hdvd : q ∣ (l.map (fun pr => pr.1 ^ pr.2)).prod := by
        rw [← certProd, ← hprod]; exact hqdvd
      obtain ⟨x, hx, hqx⟩ := hq'.dvd_prod_iff.mp hdvd
      obtain ⟨pr, hpr, rfl⟩ := List.mem_map.mp hx
      exact ⟨pr, hpr, (Nat.prime_dvd_prime_iff_eq hq (hl pr hpr)).mp
        (hq.dvd_of_dvd_pow hqx)⟩
    obtain ⟨pr, hpr, rfl⟩ := hmem
    intro hcontra
    exact hall pr hpr ((key _ (lt_of_le_of_lt (Nat.div_le_self _ _) hebound)).mpr hcontra)

/-! ### The Pratt chain certifying primality of the BN254 base field modulus -/

theorem prime_4562087 : Nat.Prime 4562087 := by
  apply certCheck_sound 4562087 5 [(2, 1), (17, 1), (109, 1), (1231, 1)]
  · intro pr hpr
    simp only [List.mem_cons, List.not_mem_nil, or_false] at hpr
    rcases hpr with rfl | rfl | rfl | rfl <;> norm_num
  · decide

theorem prime_1853641 : Nat.Prime 1853641 := by
  apply certCheck_sound 1853641 17 [(2, 3), (3, 2), (5, 1), (19, 1), (271, 1)]
  · intro pr hpr
    simp only [List.mem_cons, List.not_mem_nil, or_false] at hpr
    rcases hpr with rfl | rfl | rfl | rfl | rfl <;> norm_num
  · decide

theorem prime_1263766531 : Nat.Prime 1263766531 := by
  apply certCheck_sound 1263766531 10 [(2, 1), (3, 1), (5, 1), (13, 1), (911, 1), (3557, 1)]
  · intro pr hpr
    simp only [List.mem_cons, List.not_mem_nil, or_false] at hpr
    rcases hpr with rfl | rfl | rfl | rfl | rfl | rfl <;> norm_num
  · decide

theorem prime_35385462869 : Nat.Prime 35385462869 := by
  apply certCheck_sound 35385462869 2 [(2, 2), (7, 1), (1263766531, 1)]
  · intro pr hpr
    simp only [List.mem_cons, List.not_mem_nil, or_false] at hpr
    rcases hpr with rfl | rfl | rfl
    · norm_num
    · norm_num
    · exact prime_1263766531
  · decide

theorem prime_173171039 : Nat.Prime 173171039 := by
  apply certCheck_sound 173171039 13 [(2, 1), (73, 1), (89, 1), (13327, 1)]
  · intro pr hpr
    simp only [List.mem_cons, List.not_mem_nil, or_false] at hpr
    rcases hpr with rfl | rfl | rfl | rfl <;> norm_num
  · decide

theorem prime_2480874801745591 : Nat.Prime 2480874801745591 := by
  apply certCheck_sound 2480874801745591 6
    [(2, 1), (3, 2), (5, 1), (19, 1), (41, 1), (35385462869, 1)]
  · intro pr hpr
    simp only [List.mem_cons, List.not_mem_nil, or_false] at hpr
    rcases hpr with rfl | rfl | rfl | rfl | rfl | rfl
    · norm_num
    · norm_num
    · norm_num
    · norm_num
    · norm_num
    · exact prime_35385462869
  · decide

theorem prime_405928799 : Nat.Prime 405928799 := by
  apply certCheck_sound 405928799 22 [(2, 1), (11, 1), (4999, 1), (3691, 1)]
  · intro pr hpr
    simp only [List.mem_cons, List.not_mem_nil, or_false] at hpr
    rcases hpr with rfl | rfl | rfl | rfl <;> norm_num
  · decide

theorem prime_11465965001 : Nat.Prime 11465965001 := by
  apply certCheck_sound 11465965001 3 [(2, 3), (7, 1), (5, 4), (327599, 1)]
  · intro pr hpr
    simp only [List.mem_cons, List.not_mem_nil, or_false] at hpr
    rcases hpr with rfl | rfl | rfl | rfl <;> norm_num
  · decide

set_option maxRecDepth 10000 in
theorem prime_botCofactor :
    Nat.Prime 13427688667394608761327070753331941386769 := by
  apply certCheck_sound 13427688667394608761327070753331941386769 17
    [(2, 4), (3, 1), (7, 1), (11, 1), (4562087, 1), (1853641, 1), (173171039, 1),
      (2480874801745591, 1)]
  · intro pr hpr
    simp only [List.mem_cons, List.not_mem_nil, or_false] at hpr
    rcases hpr with rfl | rfl | rfl | rfl | rfl | rfl | rfl | rfl
    · norm_num
    · norm_num
    · norm_num
    · norm_num
    · exact prime_4562087
    · exact prime_1853641
    · exact prime_173171039
    · exact prime_2480874801745591
  · decide

set_option maxRecDepth 10000 in
theorem qBN_prime : Nat.Prime qBN := by
  apply certCheck_sound qBN 3
    [(2, 1), (3, 2), (13, 1), (29, 1), (67, 1), (229, 1), (311, 1), (983, 1),
      (11003, 1), (405928799, 1), (11465965001, 1),
      (13427688667394608761327070753331941386769, 1)]
  · intro pr hpr
    simp only [List.mem_cons, List.not_mem_nil, or_false] at hpr
    rcases hpr with rfl | rfl | rfl | rfl | rfl | rfl | rfl | rfl | rfl | rfl | rfl | rfl
    · norm_num
    · norm_num
    · norm_num
    · norm_num
    · norm_num
    · norm_num
    · norm_num
    · norm_num
    · norm_num
    · exact prime_405928799
    · exact prime_11465965001
    · exact prime_botCofactor
  · decide

instance : Fact (Nat.Prime qBN) := ⟨qBN_prime⟩

instance : NeZero qBN := ⟨qBN_prime.ne_zero⟩

/-! ## Utility lemmas -/

theorem natLeBytes_length : ∀ (w n : ℕ), (natLeBytes w n).length = w
  | 0, _ => rfl
  | w + 1, n => by simp [natLeBytes, natLeBytes_length w]

theorem leBytesToNat_cons (b : ℕ) (l : List ℕ) :
    leBytesToNat (b :: l) = b + 256 * leBytesToNat l := rfl

theorem leBytesToNat_natLeBytes : ∀ (w n : ℕ),
    leBytesToNat (natLeBytes w n) = n % 256 ^ w
  | 0, n => by simp [natLeBytes, leBytesToNat, Nat.mod_one]
  | w + 1, n => by
      rw [natLeBytes, leBytesToNat_cons, leBytesToNat_natLeBytes w]
      rw [pow_succ']
      exact (Nat.mod_mul).symm

theorem natLeBytes_getD_zero (n : ℕ) : (natLeBytes 32 n).getD 0 0 = n % 256 := rfl

theorem chunksFuel_nil {α : Type _} : ∀ (f n : ℕ), chunksFuel f n ([] : List α) = []
  | 0, _ => rfl
  | _ + 1, _ => by simp [chunksFuel]

theorem chunksFuel_congr {α : Type _} (n : ℕ) (hn : 0 < n) :
    ∀ (f g : ℕ) (l : List α), l.length ≤ f → l.length ≤ g →
      chunksFuel f n l = chunksFuel g n l
  | 0, g, l, hf, _ => by
      have : l = [] := List.length_eq_zero.mp (Nat.le_zero.mp hf)
      subst this
      rw [chunksFuel_nil, chunksFuel_nil]
  | f + 1, 0, l, _, hg => by
      have : l = [] := List.length_eq_zero.mp (Nat.le_zero.mp hg)
      subst this
      rw [chunksFuel_nil, chunksFuel_nil]
  | f + 1, g + 1, l, hf, hg => by
      rcases l with _ | ⟨a, l'⟩
      · rw [chunksFuel_nil, chunksFuel_nil]
      · simp only [chunksFuel, List.isEmpty_cons, Bool.false_eq_true, if_false]
        congr 1
        have hlen : ((a :: l').drop n).length ≤ f := by
          simp only [List.length_drop, List.length_cons] at *
          omega
        have hlen' : ((a :: l').drop n).length ≤ g := by
          simp only [List.length_drop, List.length_cons] at *
          omega
        exact chunksFuel_congr n hn f g _ hlen hlen'

theorem chunks_nil {α : Type _} (n : ℕ) : chunks n ([] : List α) = [] := rfl

theorem chunks_cons {α : Type _} (n : ℕ) (hn : 0 < n) (l : List α) (hl : l ≠ []) :
    chunks n l = l.take n :: chunks n (l.drop n) := by
  rcases l with _ | ⟨a, l'⟩
  · exact absurd rfl hl
  · show chunksFuel (a :: l').length n (a :: l') = _
    rw [List.length_cons, chunksFuel]
    simp only [List.isEmpty_cons, Bool.false_eq_true, if_false]
    congr 1
    apply chunksFuel_congr n hn
    · simp only [List.length_drop, List.length_cons]; omega
    · simp [List.length_drop]

theorem chunks_length_ge {α : Type _} (n : ℕ) (hn : 0 < n) (l : List α) :
    l.length / n ≤ (chunks n l).length := by
  generalize hf : l.length = f
  induction f using Nat.strong_induction_on generalizing l with
  | _ f ih =>
    rcases l with _ | ⟨a, l'⟩
    · rw [chunks_nil]
      simp only [List.length_nil] at hf
      subst hf
      simp
    · rw [chunks_cons n hn _ (by simp)]
      subst hf
      have hdl : ((a :: l').drop n).length = (a :: l').length - n := List.length_drop _ _
      have hlt : ((a :: l').drop n).length < (a :: l').length := by
        rw [hdl]; simp only [List.length_cons]; omega
      have := ih _ hlt _ rfl
      rw [List.length_cons]
      rw [hdl] at this
      simp only [List.length_cons] at this ⊢
      rcases Nat.lt_or_ge (l'.length + 1) n with hsmall | hbig
      · have : (l'.length + 1) / n = 0 := Nat.div_eq_of_lt hsmall
        omega
      · have hdecomp : l'.length + 1 = (l'.length + 1 - n) + n := by omega
        rw [hdecomp, Nat.add_div_right _ hn]
        omega

theorem chunks_getElem? {α : Type _} (n : ℕ) (hn : 0 < n) :
    ∀ (i : ℕ) (l : List α), i * n < l.length →
      (chunks n l)[i]? = some ((l.drop (i * n)).take n)
  | 0, l, h => by
      have hl : l ≠ [] := by
        intro hnil; subst hnil; simp at h
      rw [chunks_cons n hn l hl]
      simp
  | i + 1, l, h => by
      have hin : (i + 1) * n = i * n + n := by ring
      have hl : l ≠ [] := by
        intro hnil; subst hnil; simp at h
      rw [chunks_cons n hn l hl]
      have hrec : i * n < (l.drop n).length := by
        rw [List.length_drop]; omega
      simp only [List.getElem?_cons_succ]
      rw [chunks_getElem? n hn i _ hrec, List.drop_drop]
      congr 3
      omega

theorem chunks_mem_length {α : Type _} (n : ℕ) (hn : 0 < n) (l ch : List α)
    (h : ch ∈ chunks n l) : ch.length ≤ n := by
  generalize hf : l.length = f
  induction f using Nat.strong_induction_on generalizing l with
  | _ f ih =>
    rcases l with _ | ⟨a, l'⟩
    · rw [chunks_nil] at h; simp at h
    · rw [chunks_cons n hn _ (by simp)] at h
      rcases List.mem_cons.mp h with rfl | h'
      · simpa using Nat.min_le_left n (a :: l').length
      · subst hf
        have hlt : ((a :: l').drop n).length < (a :: l').length := by
          rw [List.length_drop]; simp only [List.length_cons]; omega
        exact ih _ hlt _ h' rfl

theorem chunks_exists_short {α : Type _} (n : ℕ) (hn : 0 < n) (l : List α)
    (hndvd : ¬ n ∣ l.length) : ∃ ch ∈ chunks n l, ch.length < n := by
  generalize hf : l.length = f
  induction f using Nat.strong_induction_on generalizing l with
  | _ f ih =>
    rcases l with _ | ⟨a, l'⟩
    · simp at hf; subst hf; exact absurd (dvd_zero n) hndvd
    · rw [chunks_cons n hn _ (by simp)]
      rcases Nat.lt_or_ge ((a :: l').length) n with hsmall | hbig
      · refine ⟨(a :: l').take n, List.mem_cons_self _ _, ?_⟩
        rw [List.length_take]
        omega
      · have hrecdvd : ¬ n ∣ ((a :: l').drop n).length := by
          rw [List.length_drop]
          intro ⟨k, hk⟩
          apply hndvd
          refine ⟨k + 1, ?_⟩
          have h1 : n * (k + 1) = n * k + n := by ring
          omega
        subst hf
        have hlt : ((a :: l').drop n).length < (a :: l').length := by
          rw [List.length_drop]; simp only [List.length_cons]; omega
        obtain ⟨ch, hch, hchlen⟩ := ih _ hlt _ hrecdvd rfl
        exact ⟨ch, List.mem_cons_of_mem _ hch, hchlen⟩

theorem optionList_eq_some {α : Type _} :
    ∀ (l : List (Option α)) (ys : List α), optionList l = some ys → l = ys.map some
  | [], ys, h => by
      simp only [optionList, Option.some.injEq] at h
      subst h; rfl
  | none :: _, ys, h => by simp [optionList] at h
  | some a :: rest, ys, h => by
      simp only [optionList, Option.map_eq_some'] at h
      obtain ⟨zs, hzs, rfl⟩ := h
      simp [optionList_eq_some rest zs hzs]

theorem optionList_isSome {α β : Type _} (f : α → Option β) :
    ∀ (l : List α), (∀ x ∈ l, ∃ y, f x = some y) →
      ∃ ys, optionList (l.map f) = some ys
  | [], _ => ⟨[], rfl⟩
  | a :: rest, h => by
      obtain ⟨y, hy⟩ := h a (List.mem_cons_self _ _)
      obtain ⟨ys, hys⟩ := optionList_isSome f rest (fun x hx => h x (List.mem_cons_of_mem _ hx))
      exact ⟨y :: ys, by simp [optionList, hy, hys]⟩

theorem drawN_length {S A : Type _} (step : S → A × S) :
    ∀ (n : ℕ) (st : S), (drawN step n st).1.length = n
  | 0, _ => rfl
  | n + 1, st => by simp [drawN, drawN_length step n]

theorem nextPow2Go_ge : ∀ (f n acc : ℕ), n ≤ 2 ^ f * acc → n ≤ nextPow2Go f n acc
  | 0, n, acc, h => by simpa [nextPow2Go] using h
  | f + 1, n, acc, h => by
      rw [nextPow2Go]
      split
      · assumption
      · apply nextPow2Go_ge f n (2 * acc)
        calc n ≤ 2 ^ (f + 1) * acc := h
          _ = 2 ^ f * (2 * acc) := by ring

theorem next_power_of_two_ge (n : ℕ) : n ≤ next_power_of_two n := by
  apply nextPow2Go_ge
  have := Nat.lt_two_pow n
  omega

theorem nextPow2Go_pow : ∀ (f j k : ℕ), 2 ^ j ≤ 2 ^ k → 2 ^ k ≤ 2 ^ f * 2 ^ j →
    nextPow2Go f (2 ^ k) (2 ^ j) = 2 ^ k
  | 0, j, k, hjk, hkj => by
      rw [nextPow2Go]
      simp only [pow_zero, one_mul] at hkj
      omega
  | f + 1, j, k, hjk, hkj => by
      rw [nextPow2Go]
      split
      · omega
      · rename_i hlt
        push_neg at hlt
        have hjklt : j < k := by
          by_contra hc
          push_neg at hc
          have hpow : (2 : ℕ) ^ k ≤ 2 ^ j := Nat.pow_le_pow_right (by norm_num) hc
          omega
        have h2 : 2 * 2 ^ j = 2 ^ (j + 1) := (pow_succ' 2 j).symm
        rw [h2]
        apply nextPow2Go_pow f (j + 1) k (Nat.pow_le_pow_right (by norm_num) hjklt)
        calc 2 ^ k ≤ 2 ^ (f + 1) * 2 ^ j := hkj
          _ = 2 ^ f * 2 ^ (j + 1) := by ring

theorem next_power_of_two_pow (k : ℕ) : next_power_of_two (2 ^ k) = 2 ^ k := by
  have h1 : (1 : ℕ) = 2 ^ 0 := rfl
  rw [next_power_of_two, h1]
  apply nextPow2Go_pow
  · exact Nat.pow_le_pow_right (by norm_num) (Nat.zero_le k)
  · rw [mul_comm, ← pow_add]
    exact Nat.pow_le_pow_right (by norm_num) (by have := Nat.lt_two_pow k; omega)

/-! ## The doubling-table commitment computes scalar multiples -/

section PedersenLemmas

variable {G : Type _} [AddCommGroup G] {F : Type _} [Field F] [Module F G]

theorem precompute_doublings_eq (g : G) :
    ∀ w, precompute_doublings g w = (List.range w).map (fun i => (2 ^ i) • g) := by
  intro w
  induction w generalizing g with
  | zero => rfl
  | succ w ih =>
      rw [precompute_doublings, ih (g + g), List.range_succ_eq_map]
      simp only [List.map_cons, pow_zero, one_nsmul, List.map_map]
      congr 1
      apply List.map_congr_left
      intro i _
      simp only [Function.comp_apply]
      rw [smul_add, ← add_nsmul, Nat.succ_eq_add_one, pow_succ]
      ring_nf

theorem binary_decomposition_le_testBit (v : ℕ) :
    binary_decomposition_le v = (List.range U8_BITWIDTH).map (fun i => v.testBit i) := by
  apply List.map_congr_left
  intro i _
  have h1 : (1 : ℕ) <<< i = 2 ^ i := by rw [Nat.shiftLeft_eq, one_mul]
  rw [h1, Nat.and_two_pow]
  cases hb : v.testBit i <;> simp [hb]

theorem foldl_testBit_sum (g : G) (v : ℕ) :
    ∀ (n : ℕ) (acc : G),
      (List.range n).foldl (fun acc i => if v.testBit i then acc + 2 ^ i • g else acc) acc =
        acc + (v % 2 ^ n) • g := by
  intro n
  induction n with
  | zero => intro acc; simp [Nat.mod_one]
  | succ n ih =>
      intro acc
      rw [List.range_succ, List.foldl_append, ih]
      simp only [List.foldl_cons, List.foldl_nil]
      have hmod : v % 2 ^ (n + 1) = v % 2 ^ n + 2 ^ n * (v / 2 ^ n % 2) := by
        rw [pow_succ]; exact Nat.mod_mul
      rw [Nat.testBit_to_div_mod]
      rcases Nat.mod_two_eq_zero_or_one (v / 2 ^ n) with h | h
      · rw [h] at hmod
        simp [h, hmod]
      · rw [h] at hmod
        simp only [h, decide_eq_true_eq, if_true]
        rw [hmod, mul_one, add_nsmul, ← add_assoc]

theorem zip_self_map {α : Type _} (f : ℕ → α) :
    ∀ (l : List ℕ), l.zip (l.map f) = l.map (fun i => (i, f i))
  | [] => rfl
  | a :: l => by
      simp only [List.map_cons, List.zip_cons_cons]
      rw [zip_self_map f l]

theorem byte_table_fold (g : G) (v : ℕ) (hv : v < 256) :
    (binary_decomposition_le v).enum.foldl
      (fun acc ib => if ib.2 then acc + (precompute_doublings g U8_BITWIDTH).getD ib.1 0
        else acc) 0 = v • g := by
  rw [binary_decomposition_le_testBit]
  rw [List.enum_eq_zip_range]
  rw [List.length_map, List.length_range]
  rw [zip_self_map, List.foldl_map]
  have htab : ∀ i ∈ List.range U8_BITWIDTH,
      (precompute_doublings g U8_BITWIDTH).getD i 0 = 2 ^ i • g := by
    intro i hi
    rw [precompute_doublings_eq]
    have hilt : i < 8 := by simpa [U8_BITWIDTH] using List.mem_range.mp hi
    interval_cases i <;> rfl
  rw [List.foldl_ext _ (fun acc i => if v.testBit i then acc + 2 ^ i • g else acc) 0
    (by intro acc i hi; rw [htab i hi])]
  rw [foldl_testBit_sum, zero_add, Nat.mod_eq_of_lt (by simpa [U8_BITWIDTH] using hv)]

theorem foldl_add_sum : ∀ (l : List G) (a : G), l.foldl (· + ·) a = a + l.sum
  | [], a => by simp
  | x :: l, a => by
      rw [List.foldl_cons, foldl_add_sum l (a + x), List.sum_cons]
      rw [add_assoc]

theorem zipWith_eq_map_zip {α β γ : Type _} (f : α → β → γ) :
    ∀ (l1 : List α) (l2 : List β),
      List.zipWith f l1 l2 = (l1.zip l2).map (fun p => f p.1 p.2)
  | [], _ => by simp
  | _ :: _, [] => by simp
  | a :: l1, b :: l2 => by
      simp only [List.zipWith_cons_cons, List.zip_cons_cons, List.map_cons]
      rw [zipWith_eq_map_zip f l1 l2]

/-- The central refinement lemma: for a well-formed committer, the
doubling-table evaluation of `vector_commit` computes the direct Pedersen
sum `Σ (m_i as scalar) • G_i + blinding • H`. -/
theorem vector_commit_eq (c : PedersenCommitter G) (hwf : wf c) (m : List ℕ)
    (hlen : m.length ≤ c.generators.length) (hbytes : ∀ x ∈ m, x < 256) (blinding : F) :
    vector_commit c m blinding =
      some ((List.zipWith (fun (v : ℕ) (g : G) => (v : F) • g) m c.generators).sum +
        blinding • c.blinding_generator) := by
  rw [vector_commit, if_pos hlen]
  simp only [Option.some.injEq]
  congr 1
  rw [hwf, List.zip_map_right, List.map_map, foldl_add_sum, zero_add]
  rw [zipWith_eq_map_zip]
  congr 1
  apply List.map_congr_left
  intro p hp
  have hmem := List.of_mem_zip hp
  have hv : p.1 < 256 := hbytes _ hmem.1
  simp only [Function.comp_apply, Prod.map_fst, Prod.map_snd, id_eq]
  rw [byte_table_fold p.2 p.1 hv]
  exact (Nat.cast_smul_eq_nsmul F p.1 p.2).symm

/-- `vector_commit` succeeds exactly on messages no longer than the
generator list. -/
theorem vector_commit_some (c : PedersenCommitter G) (m : List ℕ) (blinding : F)
    (hlen : m.length ≤ c.generators.length) :
    ∃ g, vector_commit c m blinding = some g := by
  rw [vector_commit, if_pos hlen]
  exact ⟨_, rfl⟩

end PedersenLemmas

/-! ## Matrix-commitment machinery -/

theorem getElem?_zip_of_lt {α β : Type _} (d1 : α) (d2 : β) :
    ∀ (l1 : List α) (l2 : List β) (r : ℕ), r < l1.length → r < l2.length →
      (l1.zip l2)[r]? = some (l1.getD r d1, l2.getD r d2)
  | [], _, r, h1, _ => by simp at h1
  | _ :: _, [], r, _, h2 => by simp at h2
  | a :: l1, b :: l2, 0, _, _ => by
      simp [List.zip_cons_cons]
  | a :: l1, b :: l2, r + 1, h1, h2 => by
      simp only [List.zip_cons_cons, List.getElem?_cons_succ, List.getD_cons_succ]
      exact getElem?_zip_of_lt d1 d2 l1 l2 r (by simpa using h1) (by simpa using h2)

theorem paddedData_length (data : List ℕ) :
    (paddedData data).length = next_power_of_two data.length := by
  rw [paddedData, List.length_append, List.length_replicate]
  have := next_power_of_two_ge data.length
  omega

theorem paddedData_of_two_pow (data : List ℕ) (k : ℕ) (hk : data.length = 2 ^ k) :
    paddedData data = data := by
  rw [paddedData, hk, next_power_of_two_pow, Nat.sub_self, List.replicate_zero,
    List.append_nil]

section MatrixLemmas

variable {G : Type _} [AddCommGroup G] {F : Type _} [Field F] [Module F G]
variable {RS : Type _}

/-- The full behaviour of `compute_commitments` for any committer with at
least one generator: it succeeds, the blinding factors are the first
`n_rows` draws from the seeded CSPRNG in row order, both outputs have
`n_rows` elements, and row `r` of the commitment is `vector_commit` of row
`r` of the zero-padded data under blinding factor `r`. -/
theorem compute_commitments_spec (chachaFromSeed : List ℕ → RS) (scalarRand : RS → F × RS)
    (data : List ℕ) (c : PedersenCommitter G) (seed : List ℕ)
    (hN : 0 < c.generators.length) :
    ∃ out, compute_commitments chachaFromSeed scalarRand data c seed = some out ∧
      out.blinding_factors =
        (drawN scalarRand ((paddedData data).length / c.generators.length)
          (chachaFromSeed seed)).1 ∧
      out.commitment.length = (paddedData data).length / c.generators.length ∧
      out.blinding_factors.length = (paddedData data).length / c.generators.length ∧
      ∀ r, r < (paddedData data).length / c.generators.length →
        vector_commit c
          (((paddedData data).drop (r * c.generators.length)).take c.generators.length)
          (out.blinding_factors.getD r 0) = some (out.commitment.getD r 0) := by
  have hforall : ∀ p ∈ (chunks c.generators.length (paddedData data)).zip
      ((drawN scalarRand ((paddedData data).length / c.generators.length)
        (chachaFromSeed seed)).1), ∃ g, vector_commit c p.1 p.2 = some g := by
    intro p hp
    apply vector_commit_some
    exact chunks_mem_length _ hN _ _ (List.of_mem_zip hp).1
  obtain ⟨comm, hcomm⟩ := optionList_isSome _ _ hforall
  have hmap := optionList_eq_some _ _ hcomm
  have hbfslen : ((drawN scalarRand ((paddedData data).length / c.generators.length)
      (chachaFromSeed seed)).1).length = (paddedData data).length / c.generators.length :=
    drawN_length _ _ _
  have hrowsge : (paddedData data).length / c.generators.length ≤
      (chunks c.generators.length (paddedData data)).length :=
    chunks_length_ge _ hN _
  have hcommlen : comm.length = (paddedData data).length / c.generators.length := by
    have h1 := congrArg List.length hmap
    simp only [List.length_map, List.length_zip] at h1
    omega
  refine ⟨⟨comm, (drawN scalarRand ((paddedData data).length / c.generators.length)
    (chachaFromSeed seed)).1⟩, ?_, rfl, hcommlen, hbfslen, ?_⟩
  · simp only [compute_commitments]
    rw [if_neg (Nat.pos_iff_ne_zero.mp hN)]
    rw [hcomm]
    rfl
  · intro r hr
    have hr1 : r < (chunks c.generators.length (paddedData data)).length := by omega
    have hr2 : r < ((drawN scalarRand ((paddedData data).length / c.generators.length)
        (chachaFromSeed seed)).1).length := by omega
    have hzipElem := getElem?_zip_of_lt ([] : List ℕ) (0 : F) _ _ r hr1 hr2
    have hmapElem := congrArg (fun l => l[r]?) hmap
    simp only [List.getElem?_map] at hmapElem
    rw [hzipElem] at hmapElem
    have hrc : r < comm.length := by omega
    rw [List.getElem?_eq_getElem hrc] at hmapElem
    simp only [Option.map_some'] at hmapElem
    have hrow : (chunks c.generators.length (paddedData data)).getD r [] =
        ((paddedData data).drop (r * c.generators.length)).take c.generators.length := by
      have hmul : r * c.generators.length < (paddedData data).length := by
        have h1 : r + 1 ≤ (paddedData data).length / c.generators.length := hr
        have h2 : (r + 1) * c.generators.length ≤
            ((paddedData data).length / c.generators.length) * c.generators.length :=
          Nat.mul_le_mul_right _ h1
        have h3 : ((paddedData data).length / c.generators.length) * c.generators.length ≤
            (paddedData data).length := Nat.div_mul_le_self _ _
        have h4 : (r + 1) * c.generators.length = r * c.generators.length +
            c.generators.length := by ring
        omega
      rw [List.getD_eq_getElem?_getD, chunks_getElem? _ hN r _ hmul]
      rfl
    rw [hrow] at hmapElem
    dsimp only
    rw [List.getD_eq_getElem comm (0 : G) hrc]
    exact Option.some.inj hmapElem

end MatrixLemmas

/-! ## Compressed-serialization machinery -/

theorem fqSqrt_of_sq (y : Fq) : fqSqrt (y * y) = some ((y * y) ^ ((qBN + 1) / 4)) ∧
    ((y * y) ^ ((qBN + 1) / 4) = y ∨ (y * y) ^ ((qBN + 1) / 4) = -y) := by
  have hq : 0 < qBN := by decide
  have hE : (qBN + 1) / 4 < 2 ^ 256 := by decide
  have hc : ((powMod qBN (y * y).val ((qBN + 1) / 4) : ℕ) : Fq) =
      (y * y) ^ ((qBN + 1) / 4) := by
    rw [powMod_eq _ _ _ hq hE, ZMod.natCast_mod, Nat.cast_pow, ZMod.natCast_val, ZMod.cast_id]
  have hcsq : (y * y) ^ ((qBN + 1) / 4) * (y * y) ^ ((qBN + 1) / 4) = y * y := by
    rw [← pow_add]
    by_cases hy : y = 0
    · subst hy
      have hne : (qBN + 1) / 4 + (qBN + 1) / 4 ≠ 0 := by decide
      rw [zero_mul, zero_pow hne]
    · have h1 : y * y = y ^ 2 := by ring
      rw [h1, ← pow_mul]
      have h2 : 2 * ((qBN + 1) / 4 + (qBN + 1) / 4) = (qBN - 1) + 2 := by decide
      rw [h2, pow_add, ZMod.pow_card_sub_one_eq_one hy, one_mul]
  constructor
  · rw [fqSqrt]
    simp only [hc]
    rw [if_pos hcsq]
  · have hfac : ((y * y) ^ ((qBN + 1) / 4) - y) * ((y * y) ^ ((qBN + 1) / 4) + y) = 0 := by
      have hr : ((y * y) ^ ((qBN + 1) / 4) - y) * ((y * y) ^ ((qBN + 1) / 4) + y) =
          (y * y) ^ ((qBN + 1) / 4) * (y * y) ^ ((qBN + 1) / 4) - y * y := by ring
      rw [hr, hcsq, sub_self]
    rcases mul_eq_zero.mp hfac with h | h
    · exact Or.inl (sub_eq_zero.mp h)
    · exact Or.inr (eq_neg_of_add_eq_zero_left h)

theorem get_ys_of_sq (x y : Fq) (h : y * y = (x * x + curveA) * x + curveB) :
    ∃ y1 y2 : Fq, get_ys_from_x_unchecked x = some (y1, y2) ∧ y2 = -y1 ∧
      (y1 = y ∨ y1 = -y) := by
  obtain ⟨hc, hcy⟩ := fqSqrt_of_sq y
  rw [get_ys_from_x_unchecked, ← h, hc]
  by_cases hord : ((y * y) ^ ((qBN + 1) / 4)).val < (-(y * y) ^ ((qBN + 1) / 4)).val
  · refine ⟨(y * y) ^ ((qBN + 1) / 4), -(y * y) ^ ((qBN + 1) / 4), ?_, rfl, hcy⟩
    simp only [Option.map_some']
    rw [if_pos hord]
  · refine ⟨-(y * y) ^ ((qBN + 1) / 4), (y * y) ^ ((qBN + 1) / 4), ?_,
      (neg_neg _).symm, ?_⟩
    · simp only [Option.map_some']
      rw [if_neg hord]
    · rcases hcy with h1 | h1
      · exact Or.inr (by rw [h1])
      · exact Or.inl (by rw [h1, neg_neg])

theorem parity_pick (y y1 : Fq) (hy1 : y1 = y ∨ y1 = -y) :
    (if ((natLeBytes 32 y1.val).getD 0 0 % 2) ^^^ ((natLeBytes 32 y.val).getD 0 0 &&& 1) = 0
      then y1 else -y1) = y := by
  rw [natLeBytes_getD_zero, natLeBytes_getD_zero, Nat.and_one_is_mod]
  have hmm1 : y1.val % 256 % 2 = y1.val % 2 :=
    Nat.mod_mod_of_dvd _ (by norm_num)
  have hmm2 : y.val % 256 % 2 = y.val % 2 :=
    Nat.mod_mod_of_dvd _ (by norm_num)
  rw [hmm1, hmm2]
  by_cases hy0 : y = 0
  · subst hy0
    have h10 : y1 = 0 := by rcases hy1 with h | h <;> simp [h]
    rw [h10]
    simp
  · rcases hy1 with rfl | rfl
    · simp [Nat.xor_self]
    · have hvneg : (-y).val = qBN - y.val := by
        rw [ZMod.neg_val, if_neg hy0]
      have hvlt : y.val < qBN := ZMod.val_lt y
      have hv0 : y.val ≠ 0 := fun hh => hy0 ((ZMod.val_eq_zero y).mp hh)
      have hodd : qBN % 2 = 1 := by decide
      have hne : ¬ ((-y).val % 2 ^^^ y.val % 2 = 0) := by
        intro hxor
        have := Nat.xor_eq_zero.mp hxor
        rw [hvneg] at this
        omega
      rw [if_neg hne, neg_neg]

theorem decode_x (x : Fq) : from_le_bytes_mod_order qBN (natLeBytes 32 x.val) = x := by
  rw [from_le_bytes_mod_order, leBytesToNat_natLeBytes]
  have hlt : x.val < 256 ^ 32 := lt_of_lt_of_le (ZMod.val_lt x) (by decide)
  rw [Nat.mod_eq_of_lt hlt, ZMod.natCast_val, ZMod.cast_id]

theorem from_bytes_compressed_finite (xs : List ℕ) (s : ℕ) (hxs : xs.length = 32) :
    from_bytes_compressed (0 :: (xs ++ [s])) =
      (match get_ys_from_x_unchecked (from_le_bytes_mod_order qBN xs) with
       | none => none
       | some yy => some (some (from_le_bytes_mod_order qBN xs,
           if ((natLeBytes 32 yy.1.val).getD 0 0 % 2) ^^^ s = 0 then yy.1 else yy.2))) := by
  rw [from_bytes_compressed]
  rw [if_pos (by simp [hxs])]
  have h0 : ((0 : ℕ) :: (xs ++ [s])).getD 0 0 = 0 := rfl
  rw [h0, if_neg (by norm_num)]
  have hdrop : ((0 : ℕ) :: (xs ++ [s])).drop 1 = xs ++ [s] := rfl
  have htake : (xs ++ [s]).take 32 = xs := by
    rw [← hxs]; exact List.take_left xs [s]
  have h33 : ((0 : ℕ) :: (xs ++ [s])).getD 33 0 = s := by
    rw [List.getD_cons_succ, List.getD_append_right xs [s] 0 32 (by omega)]
    simp [hxs]
  rw [hdrop, htake, h33]

/-! ## Claim theorems -/

/-- Claim C3: the claim states that `is_on_curve p` returns true for the
identity and otherwise true iff `y^2 = x^3 + b`.  The code instead compares
`x^3 + a·x + b` with `y` (not `y^2`), so it returns `false` on the curve's
own base point `(1, 2)` even though `(1, 2)` satisfies the curve equation
`2^2 = 1^3 + 3`.  This contradicts the function's own name and the trait
documentation of `a()`/`b()` (`y^2 = x^3 + ax + b`): a code bug. -/
theorem is_on_curve_wrong_on_generator :
    is_on_curve bnGenerator = false ∧ OnCurve bnGenerator := by
  constructor
  · decide
  · show (2 : Fq) * 2 = ((1 : Fq) * 1 + curveA) * 1 + curveB
    decide

/-- Claim C4: the claim states the uncompressed roundtrip succeeds for every
curve point.  In the code, `from_bytes_uncompressed` asserts
`point.is_on_curve()`, and `is_on_curve` is buggy (see C3), so decoding the
encoding of the generator `(1, 2)` — a genuine curve point — hits the failed
assertion (modelled as `none`).  The identity, which skips the check, does
round-trip. -/
theorem uncompressed_roundtrip_fails_on_generator :
    from_bytes_uncompressed (to_bytes_uncompressed bnGenerator) = none ∧
      OnCurve bnGenerator ∧
      from_bytes_uncompressed (to_bytes_uncompressed bnZero) = some bnZero := by
  refine ⟨by decide, ?_, by decide⟩
  show (2 : Fq) * 2 = ((1 : Fq) * 1 + curveA) * 1 + curveB
  decide

/-- Claim C5: for every curve point `p` (identity included),
`from_bytes_compressed (to_bytes_compressed p) = p`; the identity encodes
with tag byte 1; any 34-byte string with tag byte 1 decodes to the identity;
and decoding recovers `y` via the square root of `x^3 + b`, flipping its
sign exactly when the canonical root's parity disagrees with the stored
parity byte. -/
theorem compressed_roundtrip :
    (∀ p : Point, OnCurve p → from_bytes_compressed (to_bytes_compressed p) = some p) ∧
    (to_bytes_compressed bnZero).getD 0 0 = 1 ∧
    (∀ bytes : List ℕ, bytes.length = 34 → bytes.getD 0 0 = 1 →
      from_bytes_compressed bytes = some bnZero) := by
  refine ⟨?_, by decide, ?_⟩
  · intro p hp
    rcases p with _ | ⟨x, y⟩
    · decide
    · have hcurve : y * y = (x * x + curveA) * x + curveB := hp
      rw [to_bytes_compressed]
      rw [from_bytes_compressed_finite _ _ (natLeBytes_length 32 x.val)]
      obtain ⟨y1, y2, hys, hy2, hy1⟩ := get_ys_of_sq x y hcurve
      rw [decode_x, hys]
      rw [hy2]
      dsimp only
      rw [parity_pick y y1 hy1]
  · intro bytes hlen htag
    rw [from_bytes_compressed, if_pos hlen, if_pos htag]

/-! ## Remaining helper lemmas -/

theorem optionList_none_of_mem {α : Type _} :
    ∀ (l : List (Option α)), none ∈ l → optionList l = none
  | [], h => absurd h (List.not_mem_nil _)
  | none :: _, _ => rfl
  | some a :: rest, h => by
      have hr : none ∈ rest := by
        rcases List.mem_cons.mp h with h1 | h1
        · exact absurd h1.symm (Option.some_ne_none a)
        · exact h1
      simp [optionList, optionList_none_of_mem rest hr]

theorem chunks_length_not_dvd {α : Type _} (n : ℕ) (hn : 0 < n) (l : List α)
    (h : ¬ n ∣ l.length) : (chunks n l).length = l.length / n + 1 := by
  generalize hf : l.length = f
  induction f using Nat.strong_induction_on generalizing l with
  | _ f ih =>
    rcases l with _ | ⟨a, l'⟩
    · simp at hf; subst hf; exact absurd (dvd_zero n) h
    · rw [chunks_cons n hn _ (by simp)]
      subst hf
      rcases Nat.lt_or_ge (a :: l').length n with hsmall | hbig
      · have hdrop : (a :: l').drop n = [] :=
          List.drop_eq_nil_of_le (le_of_lt hsmall)
        rw [hdrop, chunks_nil]
        rw [Nat.div_eq_of_lt hsmall]
        rfl
      · have hrecdvd : ¬ n ∣ ((a :: l').drop n).length := by
          rw [List.length_drop]
          intro ⟨k, hk⟩
          apply h
          refine ⟨k + 1, ?_⟩
          have h1 : n * (k + 1) = n * k + n := by ring
          simp only [List.length_cons] at *
          omega
        have hlt : ((a :: l').drop n).length < (a :: l').length := by
          rw [List.length_drop]; simp only [List.length_cons]; omega
        rw [List.length_cons, ih _ hlt _ hrecdvd rfl]
        rw [List.length_drop]
        have hdecomp : (a :: l').length = ((a :: l').length - n) + n := by
          simp only [List.length_cons] at *; omega
        conv_rhs => rw [hdecomp]
        rw [Nat.add_div_right _ hn]

section LinearityHelper

variable {G : Type _} [AddCommGroup G] {F : Type _} [Field F] [Module F G]

theorem zipWith_sum_add (gens : List G) (m1 m2 : List ℕ) (hlen : m1.length = m2.length) :
    (List.zipWith (fun (v : ℕ) (g : G) => (v : F) • g)
        (List.zipWith (· + ·) m1 m2) gens).sum =
      (List.zipWith (fun (v : ℕ) (g : G) => (v : F) • g) m1 gens).sum +
        (List.zipWith (fun (v : ℕ) (g : G) => (v : F) • g) m2 gens).sum := by
  induction m1 generalizing m2 gens with
  | nil =>
      have h0 : m2 = [] := List.length_eq_zero.mp hlen.symm
      subst h0
      simp
  | cons a t1 ih =>
      rcases m2 with _ | ⟨b, t2⟩
      · simp at hlen
      · rcases gens with _ | ⟨g, gs⟩
        · simp
        · simp only [List.zipWith_cons_cons, List.sum_cons]
          rw [ih gs t2 (by simpa using hlen)]
          have hcast : ((a + b : ℕ) : F) • g = (a : F) • g + (b : F) • g := by
            rw [Nat.cast_add, add_smul]
          rw [hcast]
          abel

end LinearityHelper

/-! ## Claim theorems for the Pedersen committer -/

section PedersenClaims

variable {G : Type _} [AddCommGroup G] {F : Type _} [Field F] [Module F G]

/-- Claim C1: for every well-formed committer (doubling tables as built by
`new`), every byte message no longer than the generator list and every
blinding scalar, `vector_commit` — which sums table entries selected by the
little-endian bit decomposition of each byte — returns exactly the direct
computation `Σ (m_i as scalar) • G_i + blinding • H` by full scalar
multiplication. -/
theorem vector_commit_refines_direct (c : PedersenCommitter G) (hwf : wf c)
    (m : List ℕ) (hlen : m.length ≤ c.generators.length) (hbytes : ∀ x ∈ m, x < 256)
    (blinding : F) :
    vector_commit c m blinding =
      some ((List.zipWith (fun (v : ℕ) (g : G) => (v : F) • g) m c.generators).sum +
        blinding • c.blinding_generator) :=
  vector_commit_eq c hwf m hlen hbytes blinding

/-- Claim C6: `vector_commit` is linearly homomorphic: for byte messages of
equal length whose bytewise sums stay below 256,
`commit(m1, b1) + commit(m2, b2) = commit(m1 + m2, b1 + b2)`. -/
theorem vector_commit_linear (c : PedersenCommitter G) (hwf : wf c) (m1 m2 : List ℕ)
    (hlen12 : m1.length = m2.length) (hlen : m1.length ≤ c.generators.length)
    (hm1 : ∀ x ∈ m1, x < 256) (hm2 : ∀ x ∈ m2, x < 256)
    (hsum : ∀ x ∈ List.zipWith (· + ·) m1 m2, x ≤ 255) (b1 b2 : F) (p1 p2 : G)
    (h1 : vector_commit c m1 b1 = some p1) (h2 : vector_commit c m2 b2 = some p2) :
    vector_commit c (List.zipWith (· + ·) m1 m2) (b1 + b2) = some (p1 + p2) := by
  rw [vector_commit_eq c hwf m1 hlen hm1 b1] at h1
  rw [vector_commit_eq c hwf m2 (hlen12 ▸ hlen) hm2 b2] at h2
  have hp1 := Option.some.inj h1
  have hp2 := Option.some.inj h2
  have hlen' : (List.zipWith (· + ·) m1 m2).length ≤ c.generators.length := by
    rw [List.length_zipWith]
    omega
  have hb' : ∀ x ∈ List.zipWith (· + ·) m1 m2, x < 256 := fun x hx =>
    lt_of_le_of_lt (hsum x hx) (by norm_num)
  rw [vector_commit_eq c hwf _ hlen' hb' (b1 + b2)]
  rw [← hp1, ← hp2]
  rw [zipWith_sum_add c.generators m1 m2 hlen12, add_smul]
  congr 1
  abel

/-- Claim C8: the `message.len() <= generators.len()` assertion in
`vector_commit`: the commit fails (for every blinding) exactly when the
message is longer than the generator set; in particular a one-generator
committer rejects a two-byte message. -/
theorem vector_commit_assert_iff :
    (∀ (c : PedersenCommitter G) (m : List ℕ) (b : F), wf c →
      (vector_commit c m b = none ↔ c.generators.length < m.length)) ∧
    vector_commit witCommitter [5, 7] (4 : ZMod 5) = none := by
  constructor
  · intro c m b _hwf
    by_cases h : m.length ≤ c.generators.length
    · rw [vector_commit, if_pos h]
      simp only [reduceCtorEq, false_iff, not_lt]
      exact h
    · rw [vector_commit, if_neg h]
      simp only [true_iff]
      omega
  · decide

end PedersenClaims

/-- Claim C9: generator derivation is deterministic and depends only on the
first 32 bytes of the public string: two `PedersenCommitter::new`
constructions over any public strings of length ≥ 32 that agree on their
first 32 bytes yield pointwise-equal `(H, G_0, …, G_{N-1})`. -/
theorem generator_determinism {G XS : Type _} [AddCommGroup G]
    (xofInit : List ℕ → XS) (curveRandom : XS → G × XS) (N : ℕ) (ps1 ps2 : List ℕ)
    (h1 : 32 ≤ ps1.length) (h2 : 32 ≤ ps2.length) (htake : ps1.take 32 = ps2.take 32) :
    (new xofInit curveRandom N ps1).map (fun c => (c.blinding_generator, c.generators)) =
      (new xofInit curveRandom N ps2).map (fun c => (c.blinding_generator, c.generators)) := by
  rw [new, new, sample_generators, sample_generators, if_pos h1, if_pos h2, htake]

/-! ## Claim theorems for the matrix commitment -/

section MatrixClaims

variable {G : Type _} [AddCommGroup G] {F : Type _} [Field F] [Module F G]
variable {RS : Type _}

/-- Claim C2: for data whose length is a power of two and a multiple of the
committer's generator count `N`, `compute_commitments` returns `n_rows =
len/N` commitments and `n_rows` blinding factors; row `r` of the commitment
is `vector_commit` of `data[r*N..(r+1)*N]` under blinding factor `r`; and
the blinding factors are the first `n_rows` scalars drawn, in row order,
from the CSPRNG seeded with `seed`. -/
theorem compute_commitments_pow2 (chachaFromSeed : List ℕ → RS)
    (scalarRand : RS → F × RS) (c : PedersenCommitter G) (data seed : List ℕ) (k : ℕ)
    (hk : data.length = 2 ^ k) (hdvd : c.generators.length ∣ data.length) :
    ∃ out, compute_commitments chachaFromSeed scalarRand data c seed = some out ∧
      out.commitment.length = data.length / c.generators.length ∧
      out.blinding_factors.length = data.length / c.generators.length ∧
      out.blinding_factors =
        (drawN scalarRand (data.length / c.generators.length) (chachaFromSeed seed)).1 ∧
      ∀ r, r < data.length / c.generators.length →
        vector_commit c ((data.drop (r * c.generators.length)).take c.generators.length)
          (out.blinding_factors.getD r 0) = some (out.commitment.getD r 0) := by
  have hN : 0 < c.generators.length := by
    rcases Nat.eq_zero_or_pos c.generators.length with h0 | hpos
    · rw [h0] at hdvd
      have h00 : data.length = 0 := zero_dvd_iff.mp hdvd
      have h2k : 0 < 2 ^ k := Nat.pos_pow_of_pos k (by norm_num)
      omega
    · exact hpos
  obtain ⟨out, hout, hbf, hclen, hbflen, hrows⟩ :=
    compute_commitments_spec chachaFromSeed scalarRand data c seed hN
  have hpad : paddedData data = data := paddedData_of_two_pow data k hk
  rw [hpad] at hbf hclen hbflen hrows
  exact ⟨out, hout, hclen, hbflen, hbf, hrows⟩

/-- Claim C10: for data of any length (and any committer with at least one
generator), `compute_commitments` succeeds; it zero-pads the data to
`next_power_of_two(len)` and returns `next_power_of_two(len)/N` commitments
and blinding factors, committing row-wise to the zero-padded data. -/
theorem compute_commitments_any_length (chachaFromSeed : List ℕ → RS)
    (scalarRand : RS → F × RS) (c : PedersenCommitter G) (data seed : List ℕ)
    (hN : 0 < c.generators.length) :
    ∃ out, compute_commitments chachaFromSeed scalarRand data c seed = some out ∧
      out.commitment.length = next_power_of_two data.length / c.generators.length ∧
      out.blinding_factors.length =
        next_power_of_two data.length / c.generators.length ∧
      ∀ r, r < next_power_of_two data.length / c.generators.length →
        vector_commit c
          (((paddedData data).drop (r * c.generators.length)).take c.generators.length)
          (out.blinding_factors.getD r 0) = some (out.commitment.getD r 0) := by
  obtain ⟨out, hout, _, hclen, hbflen, hrows⟩ :=
    compute_commitments_spec chachaFromSeed scalarRand data c seed hN
  rw [paddedData_length] at hclen hbflen hrows
  exact ⟨out, hout, hclen, hbflen, hrows⟩

end MatrixClaims

/-! ## Claim theorems for the serialization boundary -/

/-- Claim C7 (counterexample): a 33-byte input — whose length is not a
multiple of the 32-byte scalar width — is NOT rejected by
`deserialize_blinding_factors_from_bytes_compressed`; the trailing 1-byte
chunk is silently decoded, yielding two scalars. -/
theorem blinding_deserialize_accepts_truncated_chunk :
    (List.replicate 33 0).length % SCALAR_ELEM_BYTEWIDTH ≠ 0 ∧
      deserialize_blinding_factors_from_bytes_compressed (List.replicate 33 0) =
        [0, 0] := by
  exact ⟨by decide, by decide⟩

/-- Claim C7 (amended): commitment deserialization fails (assertion inside
`from_bytes_compressed`) on every byte string whose length is not a multiple
of 34; blinding-factor deserialization performs no length check at all — on
a length that is not a multiple of 32 it silently returns `len/32 + 1`
scalars, the last decoded from the truncated trailing chunk. -/
theorem deserialize_length_check :
    (∀ bytes : List ℕ, bytes.length % COMPRESSED_CURVE_POINT_BYTEWIDTH ≠ 0 →
      deserialize_commitment_from_bytes_compressed bytes = none) ∧
    (∀ bytes : List ℕ, bytes.length % SCALAR_ELEM_BYTEWIDTH ≠ 0 →
      (deserialize_blinding_factors_from_bytes_compressed bytes).length =
        bytes.length / SCALAR_ELEM_BYTEWIDTH + 1) := by
  constructor
  · intro bytes hmod
    simp only [COMPRESSED_CURVE_POINT_BYTEWIDTH] at hmod ⊢
    have hndvd : ¬ (34 : ℕ) ∣ bytes.length := fun hdvd =>
      hmod (Nat.mod_eq_zero_of_dvd hdvd)
    obtain ⟨ch, hch, hchlen⟩ := chunks_exists_short 34 (by norm_num) bytes hndvd
    rw [deserialize_commitment_from_bytes_compressed]
    simp only [COMPRESSED_CURVE_POINT_BYTEWIDTH]
    apply optionList_none_of_mem
    rw [List.mem_map]
    refine ⟨ch, hch, ?_⟩
    rw [from_bytes_compressed, if_neg (by omega)]
  · intro bytes hmod
    simp only [SCALAR_ELEM_BYTEWIDTH] at hmod ⊢
    have hndvd : ¬ (32 : ℕ) ∣ bytes.length := fun hdvd =>
      hmod (Nat.mod_eq_zero_of_dvd hdvd)
    rw [deserialize_blinding_factors_from_bytes_compressed]
    simp only [SCALAR_ELEM_BYTEWIDTH, List.length_map]
    exact chunks_length_not_dvd 32 (by norm_num) bytes hndvd

/-! ## Witnesses: the claim theorems applied at concrete inputs -/

theorem vector_commit_assert_iff_witness :
    wf witCommitter ∧
      (vector_commit witCommitter [5, 7] (4 : ZMod 5) = none ↔
        witCommitter.generators.length < ([5, 7] : List ℕ).length) :=
  ⟨rfl, vector_commit_assert_iff.1 witCommitter [5, 7] (4 : ZMod 5) rfl⟩

theorem vector_commit_refines_direct_witness :
    (wf witCommitter ∧ ([5] : List ℕ).length ≤ witCommitter.generators.length ∧
      (∀ x ∈ ([5] : List ℕ), x < 256)) ∧
    vector_commit witCommitter [5] (2 : ZMod 5) =
      some ((List.zipWith (fun (v : ℕ) (g : ZMod 5) => (v : ZMod 5) • g) [5]
        witCommitter.generators).sum + (2 : ZMod 5) • witCommitter.blinding_generator) :=
  ⟨⟨rfl, by decide, by decide⟩,
    vector_commit_refines_direct witCommitter rfl [5] (by decide) (by decide) 2⟩

theorem compute_commitments_pow2_witness :
    (([3] : List ℕ).length = 2 ^ 0 ∧
      witCommitter.generators.length ∣ ([3] : List ℕ).length) ∧
    (∃ out, compute_commitments witSeed witRand [3] witCommitter [] = some out ∧
      out.commitment.length = ([3] : List ℕ).length / witCommitter.generators.length ∧
      out.blinding_factors.length =
        ([3] : List ℕ).length / witCommitter.generators.length ∧
      out.blinding_factors = (drawN witRand
        (([3] : List ℕ).length / witCommitter.generators.length) (witSeed [])).1 ∧
      ∀ r, r < ([3] : List ℕ).length / witCommitter.generators.length →
        vector_commit witCommitter
          ((([3] : List ℕ).drop (r * witCommitter.generators.length)).take
            witCommitter.generators.length)
          (out.blinding_factors.getD r 0) = some (out.commitment.getD r 0)) :=
  ⟨⟨rfl, by decide⟩,
    compute_commitments_pow2 witSeed witRand witCommitter [3] [] 0 rfl (by decide)⟩

theorem compressed_roundtrip_witness :
    OnCurve bnGenerator ∧
      from_bytes_compressed (to_bytes_compressed bnGenerator) = some bnGenerator :=
  ⟨by show (2 : Fq) * 2 = ((1 : Fq) * 1 + curveA) * 1 + curveB; decide,
    compressed_roundtrip.1 bnGenerator
      (by show (2 : Fq) * 2 = ((1 : Fq) * 1 + curveA) * 1 + curveB; decide)⟩

theorem vector_commit_linear_witness :
    (wf witCommitter ∧ ([5] : List ℕ).length = ([7] : List ℕ).length ∧
      ([5] : List ℕ).length ≤ witCommitter.generators.length ∧
      (∀ x ∈ ([5] : List ℕ), x < 256) ∧ (∀ x ∈ ([7] : List ℕ), x < 256) ∧
      (∀ x ∈ List.zipWith (· + ·) ([5] : List ℕ) [7], x ≤ 255) ∧
      vector_commit witCommitter [5] (2 : ZMod 5) = some 2 ∧
      vector_commit witCommitter [7] (3 : ZMod 5) = some 0) ∧
    vector_commit witCommitter (List.zipWith (· + ·) ([5] : List ℕ) [7])
      ((2 : ZMod 5) + 3) = some (2 + 0) :=
  ⟨⟨rfl, rfl, by decide, by decide, by decide, by decide, by decide, by decide⟩,
    vector_commit_linear witCommitter rfl [5] [7] rfl (by decide) (by decide) (by decide)
      (by decide) 2 3 2 0 (by decide) (by decide)⟩

theorem deserialize_length_check_witness :
    ((List.replicate 35 0).length % COMPRESSED_CURVE_POINT_BYTEWIDTH ≠ 0 ∧
      deserialize_commitment_from_bytes_compressed (List.replicate 35 0) = none) ∧
    ((List.replicate 33 0).length % SCALAR_ELEM_BYTEWIDTH ≠ 0 ∧
      (deserialize_blinding_factors_from_bytes_compressed (List.replicate 33 0)).length =
        (List.replicate 33 0).length / SCALAR_ELEM_BYTEWIDTH + 1) :=
  ⟨⟨by decide, deserialize_length_check.1 (List.replicate 35 0) (by decide)⟩,
    ⟨by decide, deserialize_length_check.2 (List.replicate 33 0) (by decide)⟩⟩

theorem generator_determinism_witness :
    (32 ≤ (List.replicate 32 0).length ∧ 32 ≤ (List.replicate 33 0).length ∧
      (List.replicate 32 (0 : ℕ)).take 32 = (List.replicate 33 0).take 32) ∧
    (new witSeed witRand 1 (List.replicate 32 0)).map
        (fun c => (c.blinding_generator, c.generators)) =
      (new witSeed witRand 1 (List.replicate 33 0)).map
        (fun c => (c.blinding_generator, c.generators)) :=
  ⟨⟨by decide, by decide, by decide⟩,
    generator_determinism witSeed witRand 1 _ _ (by decide) (by decide) (by decide)⟩

theorem compute_commitments_any_length_witness :
    0 < witCommitter.generators.length ∧
    (∃ out, compute_commitments witSeed witRand [1, 2, 3] witCommitter [] = some out ∧
      out.commitment.length =
        next_power_of_two ([1, 2, 3] : List ℕ).length / witCommitter.generators.length ∧
      out.blinding_factors.length =
        next_power_of_two ([1, 2, 3] : List ℕ).length / witCommitter.generators.length ∧
      ∀ r, r < next_power_of_two ([1, 2, 3] : List ℕ).length /
          witCommitter.generators.length →
        vector_commit witCommitter
          (((paddedData [1, 2, 3]).drop (r * witCommitter.generators.length)).take
            witCommitter.generators.length)
          (out.blinding_factors.getD r 0) = some (out.commitment.getD r 0)) :=
  ⟨by decide,
    compute_commitments_any_length witSeed witRand witCommitter [1, 2, 3] [] (by decide)⟩

end Hyrax
